import Mathlib

/-!
# Verification of the py-caskdb storage engine (`disk_store.py`)

A shallow embedding of the BitCask-style key-value store.  Byte strings
(Python `bytes`, and `str` through its UTF-8 encoding) are modelled as
`List Nat`; the log file is the list of its bytes; the in-memory KeyDir
(a Python `dict` keyed by strings) is an association list with
first-occurrence lookup and in-place overwrite, which matches `dict`
lookup/update semantics.

The record codec (`format.py`: `encode_kv`, `decode_kv`, `decode_header`,
`HEADER_SIZE`) is not part of the sources at hand, so it is modelled from
the spec: a fixed 12-byte header of three unsigned 32-bit little-endian
fields `(timestamp, key_length, value_length)` followed by the raw key and
value bytes.

`DiskStorage.__init__`, `_load_keydir`, `set` and `get` are translated
statement by statement from `disk_store.py`.  File reads `f.read(n)` return
up to `n` bytes (`(file.drop pos).take n`), and `f.tell()` after a sequence
of reads is the position clamped to the file length.
-/

/-- A byte string (Python `bytes`; `str` values through UTF-8). -/
abbrev Bytes := List Nat

/-- A KeyDir: association list from key to `(offset, size)`, modelling the
Python `dict` (at most one binding per key in every state the engine builds). -/
abbrev Keydir := List (Bytes × Nat × Nat)

/-- One `set` call's arguments: `(timestamp, key, value)`. -/
abbrev Op := Nat × Bytes × Bytes

/-- Modelled from the spec: width of the fixed record header, three
unsigned 32-bit fields. -/
def HEADER_SIZE : Nat := 12

/-- Modelled from the spec: little-endian 4-byte encoding of an unsigned
32-bit field (the value is taken modulo `2^32` byte by byte). -/
def u32le (n : Nat) : Bytes :=
  [n % 256, n / 256 % 256, n / 65536 % 256, n / 16777216 % 256]

/-- Modelled from the spec: the number a little-endian 4-byte field holds. -/
def decodeU32 (a b c d : Nat) : Nat :=
  a + 256 * b + 65536 * c + 16777216 * d

/-- Modelled from the spec (`format.encode_kv`): header then raw key bytes
then raw value bytes, together with the total record size. -/
def encode_kv (timestamp : Nat) (key value : Bytes) : Nat × Bytes :=
  (HEADER_SIZE + key.length + value.length,
    u32le timestamp ++ u32le key.length ++ u32le value.length ++ key ++ value)

/-- Modelled from the spec (`format.decode_header`): pure parse of the
fixed-size header into `(timestamp, key_length, value_length)`; fails
(`MalformedHeader`, i.e. `none`) when fewer than `HEADER_SIZE` bytes are
supplied. -/
def decode_header : Bytes → Option (Nat × Nat × Nat)
  | t0 :: t1 :: t2 :: t3 :: k0 :: k1 :: k2 :: k3 :: v0 :: v1 :: v2 :: v3 :: _ =>
      some (decodeU32 t0 t1 t2 t3, decodeU32 k0 k1 k2 k3, decodeU32 v0 v1 v2 v3)
  | _ => none

/-- Modelled from the spec (`format.decode_kv`): parses header-prefixed
bytes into `(timestamp, key, value)`; fails (`MalformedRecord`, i.e. `none`)
when the byte slice is shorter than `HEADER_SIZE + key_length +
value_length` implied by its own header. -/
def decode_kv (data : Bytes) : Option (Nat × Bytes × Bytes) :=
  match decode_header data with
  | none => none
  | some (ts, ksz, vsz) =>
      if data.length < HEADER_SIZE + ksz + vsz then none
      else some (ts, (data.drop HEADER_SIZE).take ksz,
                 (data.drop (HEADER_SIZE + ksz)).take vsz)

/-- Python `dict` lookup (`keydir[key]` / `key in keydir`). -/
def dictLookup : Keydir → Bytes → Option (Nat × Nat)
  | [], _ => none
  | (k', e) :: rest, k => if k' = k then some e else dictLookup rest k

/-- Python `dict` update (`keydir[key] = e`): overwrite the binding in
place when the key is present, append it otherwise. -/
def dictInsert : Keydir → Bytes → Nat × Nat → Keydir
  | [], k, e => [(k, e)]
  | (k', e') :: rest, k, e =>
      if k' = k then (k, e) :: rest else (k', e') :: dictInsert rest k e

/-- Each key appears at most once, the defining property of a `dict`. -/
def nodupKeys (d : Keydir) : Prop := (d.map Prod.fst).Nodup

/-- How many bindings a KeyDir holds for a key. -/
def countKey (d : Keydir) (k : Bytes) : Nat :=
  d.countP (fun e => e.1 == k)

/-- The state of a live `DiskStorage` instance: the bytes of the backing
log file and the in-memory KeyDir. -/
@[ext]
structure DiskStorage where
  fileBytes : Bytes
  keydir : Keydir
deriving DecidableEq

/-- A freshly opened engine over an empty (just created) file. -/
def emptyEngine : DiskStorage := ⟨[], []⟩

/-- A UTF-8 continuation byte, `0x80`-`0xBF`. -/
def contB (b : Nat) : Bool := 0x80 ≤ b && b ≤ 0xBF

/-- Whether Python `bytes.decode("utf-8")` succeeds: strict RFC 3629 UTF-8
(continuation bytes in range, no overlong forms, no surrogates, at most
U+10FFFF). -/
def validUtf8 : Bytes → Bool
  | [] => true
  | b :: rest =>
      if b ≤ 0x7F then validUtf8 rest
      else if b ≤ 0xC1 then false
      else if b ≤ 0xDF then
        match rest with
        | c1 :: rest2 => contB c1 && validUtf8 rest2
        | [] => false
      else if b ≤ 0xEF then
        match rest with
        | c1 :: c2 :: rest3 =>
            (if b = 0xE0 then decide (0xA0 ≤ c1) && decide (c1 ≤ 0xBF)
             else if b = 0xED then decide (0x80 ≤ c1) && decide (c1 ≤ 0x9F)
             else contB c1) && contB c2 && validUtf8 rest3
        | _ => false
      else if b ≤ 0xF4 then
        match rest with
        | c1 :: c2 :: c3 :: rest4 =>
            (if b = 0xF0 then decide (0x90 ≤ c1) && decide (c1 ≤ 0xBF)
             else if b = 0xF4 then decide (0x80 ≤ c1) && decide (c1 ≤ 0x8F)
             else contB c1) && contB c2 && contB c3 && validUtf8 rest4
        | _ => false
      else false

/-- `DiskStorage._load_keydir`, one loop iteration per call: read up to
`HEADER_SIZE` bytes; an empty read ends the loop; a short non-empty read
makes `decode_header` fail (`struct.error`, surfaced as `CorruptLog`,
i.e. `none`); otherwise read (up to) `ksz` key bytes and decode them as
UTF-8 (`f.read(ksz).decode("utf-8")` — a `UnicodeDecodeError` aborts the
load, i.e. `none`), skip `vsz` value bytes, record
`(offset, HEADER_SIZE + ksz + vsz)` under the key read, and continue from
`f.tell()`. -/
def loadKeydirAux (file : Bytes) (pos : Nat) (acc : Keydir) : Option Keydir :=
  if h : (file.drop pos).take HEADER_SIZE = [] then some acc
  else
    match decode_header ((file.drop pos).take HEADER_SIZE) with
    | none => none
    | some (_, ksz, vsz) =>
        if validUtf8 ((file.drop (pos + HEADER_SIZE)).take ksz) then
          loadKeydirAux file (min (pos + (HEADER_SIZE + ksz + vsz)) file.length)
            (dictInsert acc ((file.drop (pos + HEADER_SIZE)).take ksz)
              (pos, HEADER_SIZE + ksz + vsz))
        else none
termination_by file.length - pos
decreasing_by
  have hne : file.drop pos ≠ [] := by
    intro hnil
    exact h (by simp [hnil])
  have hlt : pos < file.length := by
    by_contra hge
    exact hne (List.drop_eq_nil_of_le (by omega))
  simp only [HEADER_SIZE]
  omega

/-- `DiskStorage._load_keydir`: full scan of the log from offset 0. -/
def loadKeydir (file : Bytes) : Option Keydir := loadKeydirAux file 0 []

/-- `DiskStorage.__init__` on a file holding `file` (opening creates the
file when absent, so a fresh path is `openEngine []`): scan the whole log
to build the KeyDir; `none` is the `CorruptLog` outcome. -/
def openEngine (file : Bytes) : Option DiskStorage :=
  (loadKeydir file).map (fun d => ⟨file, d⟩)

/-- `DiskStorage.set`: encode the record, point the KeyDir at the pre-write
end of the log (`self.fw.tell()`) with the encoded size, append the bytes. -/
def setOp (s : DiskStorage) (timestamp : Nat) (key value : Bytes) : DiskStorage :=
  { fileBytes := s.fileBytes ++ (encode_kv timestamp key value).2,
    keydir := dictInsert s.keydir key
      (s.fileBytes.length, (encode_kv timestamp key value).1) }

/-- The state left behind by a `DiskStorage.set` whose `self.fw.write(data)`
raises: the KeyDir update on the previous line has already happened, the
file gained no bytes, and the exception propagates to the caller. -/
def setOpWriteFail (s : DiskStorage) (timestamp : Nat) (key value : Bytes) :
    DiskStorage :=
  { fileBytes := s.fileBytes,
    keydir := dictInsert s.keydir key
      (s.fileBytes.length, (encode_kv timestamp key value).1) }

/-- `DiskStorage.get`: an absent key returns the empty string; a present
key seeks to `offset`, reads up to `size` bytes and decodes them.  A
`decode_kv` failure propagates as an exception, modelled as `none`. -/
def getOp (s : DiskStorage) (key : Bytes) : Option Bytes :=
  match dictLookup s.keydir key with
  | none => some []
  | some (offset, size) =>
      match decode_kv ((s.fileBytes.drop offset).take size) with
      | none => none
      | some (_, _, value) => some value

/-- Run a sequence of `set` calls. -/
def applyOps (s : DiskStorage) : List Op → DiskStorage
  | [] => s
  | (ts, k, v) :: rest => applyOps (setOp s ts k v) rest

/-- The `set` call is one the public API can make: key and value lengths
fit the header's unsigned 32-bit fields, and the key bytes are the UTF-8
encoding of a text key (`set` takes `key: str`, so the bytes it writes are
always valid UTF-8). -/
def opFits (op : Op) : Prop :=
  op.2.1.length < 2 ^ 32 ∧ op.2.2.length < 2 ^ 32 ∧ validUtf8 op.2.1 = true

/-- Every operation of the sequence fits the header fields. -/
def opsFit (ops : List Op) : Prop := ∀ op ∈ ops, opFits op

instance : DecidablePred opFits := fun op => by
  unfold opFits; infer_instance

instance (ops : List Op) : Decidable (opsFit ops) :=
  List.decidableBAll _ ops

/-- The bytes one `set` appends to the log. -/
def encodeRecord (op : Op) : Bytes := (encode_kv op.1 op.2.1 op.2.2).2

/-- The log file produced by a sequence of `set` calls on a fresh file. -/
def logOf : List Op → Bytes
  | [] => []
  | op :: rest => encodeRecord op ++ logOf rest

/-- The KeyDir entries the load scan records for records laid out
consecutively from `pos`, folded onto `acc`. -/
def scanEntries : Nat → Keydir → List Op → Keydir
  | _, acc, [] => acc
  | pos, acc, (_, k, v) :: rest =>
      scanEntries (pos + (HEADER_SIZE + k.length + v.length))
        (dictInsert acc k (pos, HEADER_SIZE + k.length + v.length)) rest

/-- A KeyDir entry is healthy: it points at a byte range of the log that
is entirely on disk and holds exactly one encoded record whose key is the
entry's key. -/
def entryOK (file : Bytes) (k : Bytes) (e : Nat × Nat) : Prop :=
  ∃ ts v, k.length < 2 ^ 32 ∧ v.length < 2 ^ 32 ∧
    e.2 = HEADER_SIZE + k.length + v.length ∧
    e.1 + e.2 ≤ file.length ∧
    (file.drop e.1).take e.2 = (encode_kv ts k v).2

/-- Every KeyDir binding of the state is healthy. -/
def storageInv (s : DiskStorage) : Prop :=
  ∀ k e, dictLookup s.keydir k = some e → entryOK s.fileBytes k e

/-! ## Codec lemmas -/

lemma encode_kv_snd (ts : Nat) (k v : Bytes) :
    (encode_kv ts k v).2 = u32le ts ++ u32le k.length ++ u32le v.length ++ k ++ v := rfl

lemma encode_kv_fst (ts : Nat) (k v : Bytes) :
    (encode_kv ts k v).1 = HEADER_SIZE + k.length + v.length := rfl

lemma length_encode_kv (ts : Nat) (k v : Bytes) :
    ((encode_kv ts k v).2).length = HEADER_SIZE + k.length + v.length := by
  simp [encode_kv, u32le, HEADER_SIZE]
  omega

lemma decode_header_encode (ts ksz vsz : Nat) (r1 r2 : Bytes) :
    decode_header (u32le ts ++ u32le ksz ++ u32le vsz ++ r1 ++ r2)
      = some (ts % 2 ^ 32, ksz % 2 ^ 32, vsz % 2 ^ 32) := by
  simp only [u32le, List.cons_append, List.nil_append, decode_header, decodeU32,
    Option.some.injEq, Prod.mk.injEq]
  omega

lemma drop_header (a b c : Nat) (X Y : Bytes) :
    (u32le a ++ u32le b ++ u32le c ++ X ++ Y).drop HEADER_SIZE = X ++ Y := by
  simp only [u32le, List.cons_append, List.nil_append, HEADER_SIZE, List.drop_succ_cons,
    List.drop_zero]

/-- Round-trip of the codec on fitting inputs. -/
lemma decode_encode (ts : Nat) (k v : Bytes)
    (hk : k.length < 2 ^ 32) (hv : v.length < 2 ^ 32) :
    decode_kv (encode_kv ts k v).2 = some (ts % 2 ^ 32, k, v) := by
  have hdec : decode_header (encode_kv ts k v).2
      = some (ts % 2 ^ 32, k.length, v.length) := by
    rw [encode_kv_snd, decode_header_encode, Nat.mod_eq_of_lt hk, Nat.mod_eq_of_lt hv]
  have hlen : ¬ ((encode_kv ts k v).2.length < HEADER_SIZE + k.length + v.length) := by
    rw [length_encode_kv]; omega
  have hd12 : (encode_kv ts k v).2.drop HEADER_SIZE = k ++ v := by
    rw [encode_kv_snd]; exact drop_header _ _ _ _ _
  have hkey : ((encode_kv ts k v).2.drop HEADER_SIZE).take k.length = k := by
    rw [hd12]; exact List.take_left k v
  have hval : ((encode_kv ts k v).2.drop (HEADER_SIZE + k.length)).take v.length = v := by
    have h2 : (encode_kv ts k v).2.drop (HEADER_SIZE + k.length)
        = ((encode_kv ts k v).2.drop HEADER_SIZE).drop k.length := by
      rw [List.drop_drop, Nat.add_comm]
    rw [h2, hd12, List.drop_left, List.take_length]
  simp only [decode_kv, hdec, hlen, if_false, hkey, hval]

/-! ## Dictionary lemmas -/

lemma dictLookup_insert_self (d : Keydir) (k : Bytes) (e : Nat × Nat) :
    dictLookup (dictInsert d k e) k = some e := by
  induction d with
  | nil => simp [dictInsert, dictLookup]
  | cons hd tl ih =>
      obtain ⟨k', e'⟩ := hd
      by_cases h : k' = k
      · simp [dictInsert, h, dictLookup]
      · simp [dictInsert, h, dictLookup, ih]

lemma dictLookup_insert_ne (d : Keydir) (k k' : Bytes) (e : Nat × Nat)
    (h : k' ≠ k) : dictLookup (dictInsert d k e) k' = dictLookup d k' := by
  have hkk' : ¬ (k = k') := fun he => h he.symm
  induction d with
  | nil =>
      simp only [dictInsert, dictLookup]
      rw [if_neg hkk']
  | cons hd tl ih =>
      obtain ⟨k'', e''⟩ := hd
      by_cases h2 : k'' = k
      · have hk''k' : ¬ (k'' = k') := fun he => h (he.symm.trans h2)
        simp only [dictInsert, if_pos h2, dictLookup, if_neg hkk', if_neg hk''k']
      · simp only [dictInsert, if_neg h2, dictLookup, ih]

lemma mem_keys_insert (d : Keydir) (k : Bytes) (e : Nat × Nat) (a : Bytes)
    (h : a ∈ (dictInsert d k e).map Prod.fst) :
    a ∈ d.map Prod.fst ∨ a = k := by
  induction d with
  | nil =>
      right
      simpa [dictInsert] using h
  | cons hd tl ih =>
      obtain ⟨k'', e''⟩ := hd
      by_cases h2 : k'' = k
      · simp only [dictInsert, if_pos h2, List.map_cons, List.mem_cons] at h
        rcases h with h | h
        · right; exact h
        · left
          simp only [List.map_cons, List.mem_cons]
          right; exact h
      · simp only [dictInsert, if_neg h2, List.map_cons, List.mem_cons] at h
        rcases h with h | h
        · left
          simp only [List.map_cons, List.mem_cons]
          left; exact h
        · rcases ih h with h3 | h3
          · left
            simp only [List.map_cons, List.mem_cons]
            right; exact h3
          · right; exact h3

lemma nodupKeys_insert (d : Keydir) (k : Bytes) (e : Nat × Nat)
    (h : nodupKeys d) : nodupKeys (dictInsert d k e) := by
  induction d with
  | nil => simp [dictInsert, nodupKeys]
  | cons hd tl ih =>
      obtain ⟨k', e'⟩ := hd
      unfold nodupKeys at h
      simp only [List.map_cons, List.nodup_cons] at h
      by_cases h2 : k' = k
      · unfold nodupKeys
        simp only [dictInsert, if_pos h2, List.map_cons, List.nodup_cons]
        refine ⟨fun hmem => h.1 (h2 ▸ hmem), h.2⟩
      · unfold nodupKeys
        simp only [dictInsert, if_neg h2, List.map_cons, List.nodup_cons]
        refine ⟨fun hmem => ?_, ih h.2⟩
        rcases mem_keys_insert tl k e k' hmem with h3 | h3
        · exact h.1 h3
        · exact h2 h3

lemma countKey_eq_zero (d : Keydir) (k : Bytes)
    (h : k ∉ d.map Prod.fst) : countKey d k = 0 := by
  induction d with
  | nil => rfl
  | cons hd tl ih =>
      obtain ⟨k', e'⟩ := hd
      simp only [List.map_cons, List.mem_cons, not_or] at h
      have hne : (k' == k) = false :=
        beq_eq_false_iff_ne.mpr (fun he => h.1 he.symm)
      have h0 : countKey tl k = 0 := ih h.2
      unfold countKey at h0 ⊢
      rw [List.countP_cons]
      simp [hne, h0]

lemma countKey_insert (d : Keydir) (k : Bytes) (e : Nat × Nat)
    (h : nodupKeys d) : countKey (dictInsert d k e) k = 1 := by
  induction d with
  | nil => simp [dictInsert, countKey, List.countP_cons]
  | cons hd tl ih =>
      obtain ⟨k', e'⟩ := hd
      unfold nodupKeys at h
      simp only [List.map_cons, List.nodup_cons] at h
      by_cases h2 : k' = k
      · have h0 : countKey tl k = 0 := countKey_eq_zero tl k (h2 ▸ h.1)
        unfold countKey at h0 ⊢
        simp only [dictInsert, if_pos h2, List.countP_cons, h0]
        simp
      · have h1 := ih h.2
        have hne : (k' == k) = false := beq_eq_false_iff_ne.mpr h2
        unfold countKey at h1 ⊢
        simp only [dictInsert, if_neg h2, List.countP_cons, h1, hne]
        simp

/-! ## Load-scan lemmas -/

lemma decode_header_exact (a b c : Nat) :
    decode_header (u32le a ++ u32le b ++ u32le c)
      = some (a % 2 ^ 32, b % 2 ^ 32, c % 2 ^ 32) := by
  simp only [u32le, List.cons_append, List.nil_append, decode_header, decodeU32,
    Option.some.injEq, Prod.mk.injEq]
  omega

lemma take_header (ts : Nat) (k v : Bytes) :
    ((encode_kv ts k v).2).take HEADER_SIZE
      = u32le ts ++ u32le k.length ++ u32le v.length := rfl

lemma decode_header_short (bs : Bytes) (h : bs.length < HEADER_SIZE) :
    decode_header bs = none := by
  rcases bs with _ | ⟨a0, bs⟩; · rfl
  rcases bs with _ | ⟨a1, bs⟩; · rfl
  rcases bs with _ | ⟨a2, bs⟩; · rfl
  rcases bs with _ | ⟨a3, bs⟩; · rfl
  rcases bs with _ | ⟨a4, bs⟩; · rfl
  rcases bs with _ | ⟨a5, bs⟩; · rfl
  rcases bs with _ | ⟨a6, bs⟩; · rfl
  rcases bs with _ | ⟨a7, bs⟩; · rfl
  rcases bs with _ | ⟨a8, bs⟩; · rfl
  rcases bs with _ | ⟨a9, bs⟩; · rfl
  rcases bs with _ | ⟨a10, bs⟩; · rfl
  rcases bs with _ | ⟨a11, bs⟩; · rfl
  exfalso
  simp [HEADER_SIZE] at h
  omega

lemma loadKeydirAux_atEnd (file : Bytes) (pos : Nat) (acc : Keydir)
    (h : file.length ≤ pos) : loadKeydirAux file pos acc = some acc := by
  rw [loadKeydirAux.eq_def]
  rw [dif_pos (by rw [List.drop_eq_nil_of_le h]; rfl)]

/-- Scanning one complete record starting at `pos` records its entry and
moves to the next record boundary. -/
lemma loadKeydirAux_step (file : Bytes) (pos : Nat) (acc : Keydir)
    (ts : Nat) (k v rest : Bytes)
    (hk : k.length < 2 ^ 32) (hv : v.length < 2 ^ 32)
    (hutf : validUtf8 k = true)
    (hpos : pos ≤ file.length)
    (hdrop : file.drop pos = (encode_kv ts k v).2 ++ rest) :
    loadKeydirAux file pos acc
      = loadKeydirAux file (pos + (HEADER_SIZE + k.length + v.length))
          (dictInsert acc k (pos, HEADER_SIZE + k.length + v.length)) := by
  have hel : ((encode_kv ts k v).2).length = HEADER_SIZE + k.length + v.length :=
    length_encode_kv ts k v
  have hheader : (file.drop pos).take HEADER_SIZE
      = u32le ts ++ u32le k.length ++ u32le v.length := by
    rw [hdrop, List.take_append_of_le_length (by rw [hel]; omega), take_header]
  have hne : ¬ ((file.drop pos).take HEADER_SIZE = []) := by
    rw [hheader]; simp [u32le]
  have hdec : decode_header ((file.drop pos).take HEADER_SIZE)
      = some (ts % 2 ^ 32, k.length, v.length) := by
    rw [hheader, decode_header_exact, Nat.mod_eq_of_lt hk, Nat.mod_eq_of_lt hv]
  have hkeyread : (file.drop (pos + HEADER_SIZE)).take k.length = k := by
    have h1 : file.drop (pos + HEADER_SIZE) = (file.drop pos).drop HEADER_SIZE := by
      rw [List.drop_drop, Nat.add_comm]
    have h2 : ((encode_kv ts k v).2).drop HEADER_SIZE = k ++ v := by
      rw [encode_kv_snd]; exact drop_header _ _ _ _ _
    rw [h1, hdrop, List.drop_append_of_le_length (by rw [hel]; omega), h2,
      List.append_assoc]
    exact List.take_left k (v ++ rest)
  have hflen : file.length - pos
      = (HEADER_SIZE + k.length + v.length) + rest.length := by
    have h1 : (file.drop pos).length = file.length - pos := List.length_drop _ _
    rw [hdrop, List.length_append, hel] at h1
    omega
  have hmin : min (pos + (HEADER_SIZE + k.length + v.length)) file.length
      = pos + (HEADER_SIZE + k.length + v.length) := Nat.min_eq_left (by omega)
  rw [loadKeydirAux.eq_def, dif_neg hne, hdec]
  dsimp only
  rw [hkeyread, if_pos hutf, hmin]

/-- Scanning a record truncated strictly inside its header fails
(`struct.error`, i.e. `CorruptLog`). -/
lemma loadKeydirAux_truncHeader (file : Bytes) (pos : Nat) (acc : Keydir)
    (ts : Nat) (k v : Bytes) (t : Nat)
    (ht0 : 0 < t) (ht : t < HEADER_SIZE)
    (hdrop : file.drop pos = ((encode_kv ts k v).2).take t) :
    loadKeydirAux file pos acc = none := by
  have hel : ((encode_kv ts k v).2).length = HEADER_SIZE + k.length + v.length :=
    length_encode_kv ts k v
  have hlen : (file.drop pos).length = t := by
    rw [hdrop, List.length_take, hel]
    simp only [HEADER_SIZE] at ht ⊢
    omega
  have htake : (file.drop pos).take HEADER_SIZE = file.drop pos :=
    List.take_of_length_le (by omega)
  have hne : ¬ ((file.drop pos).take HEADER_SIZE = []) := by
    rw [htake]
    intro hnil
    rw [hnil] at hlen
    simp at hlen
    omega
  rw [loadKeydirAux.eq_def, dif_neg hne, htake,
    decode_header_short _ (by omega)]

/-- Scanning a record truncated inside its key or value bytes, where the
truncated key read still decodes as UTF-8, silently succeeds: the key read
is recorded with the full record size and the scan stops at end-of-file. -/
lemma loadKeydirAux_truncTail (file : Bytes) (pos : Nat) (acc : Keydir)
    (ts : Nat) (k v : Bytes) (t : Nat)
    (hk : k.length < 2 ^ 32) (hv : v.length < 2 ^ 32)
    (hutf : validUtf8 (k.take (t - HEADER_SIZE)) = true)
    (h12 : HEADER_SIZE ≤ t) (ht : t < HEADER_SIZE + k.length + v.length)
    (hpos : pos ≤ file.length)
    (hdrop : file.drop pos = ((encode_kv ts k v).2).take t) :
    loadKeydirAux file pos acc
      = some (dictInsert acc (k.take (t - HEADER_SIZE))
          (pos, HEADER_SIZE + k.length + v.length)) := by
  have hel : ((encode_kv ts k v).2).length = HEADER_SIZE + k.length + v.length :=
    length_encode_kv ts k v
  have hlen : (file.drop pos).length = t := by
    rw [hdrop, List.length_take, hel]
    omega
  have hflen : file.length = pos + t := by
    have h1 : (file.drop pos).length = file.length - pos := List.length_drop _ _
    omega
  have hheader : (file.drop pos).take HEADER_SIZE
      = u32le ts ++ u32le k.length ++ u32le v.length := by
    rw [hdrop, List.take_take, Nat.min_eq_left h12, take_header]
  have hne : ¬ ((file.drop pos).take HEADER_SIZE = []) := by
    rw [hheader]; simp [u32le]
  have hdec : decode_header ((file.drop pos).take HEADER_SIZE)
      = some (ts % 2 ^ 32, k.length, v.length) := by
    rw [hheader, decode_header_exact, Nat.mod_eq_of_lt hk, Nat.mod_eq_of_lt hv]
  have hkv : ((encode_kv ts k v).2).drop HEADER_SIZE = k ++ v := by
    rw [encode_kv_snd]; exact drop_header _ _ _ _ _
  have hkeyread : (file.drop (pos + HEADER_SIZE)).take k.length
      = k.take (t - HEADER_SIZE) := by
    have h1 : file.drop (pos + HEADER_SIZE) = (file.drop pos).drop HEADER_SIZE := by
      rw [List.drop_drop, Nat.add_comm]
    rw [h1, hdrop, List.drop_take, hkv, List.take_take]
    by_cases hc : t - HEADER_SIZE ≤ k.length
    · rw [Nat.min_eq_right hc, List.take_append_of_le_length hc]
    · push_neg at hc
      rw [Nat.min_eq_left (by omega), List.take_left]
      exact (List.take_of_length_le (by omega)).symm
  have hmin : min (pos + (HEADER_SIZE + k.length + v.length)) file.length
      = file.length := Nat.min_eq_right (by omega)
  rw [loadKeydirAux.eq_def, dif_neg hne, hdec]
  dsimp only
  rw [hkeyread, if_pos hutf, hmin, loadKeydirAux_atEnd _ _ _ (le_refl _)]

/-- Scanning a record truncated inside its key bytes so that the truncated
key read is not valid UTF-8 fails: `f.read(ksz).decode("utf-8")` raises
`UnicodeDecodeError`. -/
lemma loadKeydirAux_truncKeyBad (file : Bytes) (pos : Nat) (acc : Keydir)
    (ts : Nat) (k v : Bytes) (t : Nat)
    (hk : k.length < 2 ^ 32) (hv : v.length < 2 ^ 32)
    (hutf : validUtf8 (k.take (t - HEADER_SIZE)) = false)
    (h12 : HEADER_SIZE ≤ t) (ht : t < HEADER_SIZE + k.length + v.length)
    (hpos : pos ≤ file.length)
    (hdrop : file.drop pos = ((encode_kv ts k v).2).take t) :
    loadKeydirAux file pos acc = none := by
  have hel : ((encode_kv ts k v).2).length = HEADER_SIZE + k.length + v.length :=
    length_encode_kv ts k v
  have hheader : (file.drop pos).take HEADER_SIZE
      = u32le ts ++ u32le k.length ++ u32le v.length := by
    rw [hdrop, List.take_take, Nat.min_eq_left h12, take_header]
  have hne : ¬ ((file.drop pos).take HEADER_SIZE = []) := by
    rw [hheader]; simp [u32le]
  have hdec : decode_header ((file.drop pos).take HEADER_SIZE)
      = some (ts % 2 ^ 32, k.length, v.length) := by
    rw [hheader, decode_header_exact, Nat.mod_eq_of_lt hk, Nat.mod_eq_of_lt hv]
  have hkv : ((encode_kv ts k v).2).drop HEADER_SIZE = k ++ v := by
    rw [encode_kv_snd]; exact drop_header _ _ _ _ _
  have hkeyread : (file.drop (pos + HEADER_SIZE)).take k.length
      = k.take (t - HEADER_SIZE) := by
    have h1 : file.drop (pos + HEADER_SIZE) = (file.drop pos).drop HEADER_SIZE := by
      rw [List.drop_drop, Nat.add_comm]
    rw [h1, hdrop, List.drop_take, hkv, List.take_take]
    by_cases hc : t - HEADER_SIZE ≤ k.length
    · rw [Nat.min_eq_right hc, List.take_append_of_le_length hc]
    · push_neg at hc
      rw [Nat.min_eq_left (by omega), List.take_left]
      exact (List.take_of_length_le (by omega)).symm
  rw [loadKeydirAux.eq_def, dif_neg hne, hdec]
  dsimp only
  rw [hkeyread, if_neg (by rw [hutf]; exact Bool.false_ne_true)]

/-- The load scan walks a run of complete records laid out from the end of
`pre`, folding their entries onto the accumulator, and continues at the
suffix. -/
lemma scan_log (rest : List Op) : ∀ (pre suffix : Bytes) (acc : Keydir),
    opsFit rest →
    loadKeydirAux (pre ++ (logOf rest ++ suffix)) pre.length acc
      = loadKeydirAux (pre ++ (logOf rest ++ suffix))
          (pre.length + (logOf rest).length) (scanEntries pre.length acc rest) := by
  induction rest with
  | nil =>
      intro pre suffix acc _
      simp [logOf, scanEntries]
  | cons op rest ih =>
      intro pre suffix acc hfit
      obtain ⟨ts, k, v⟩ := op
      have hkl : k.length < 2 ^ 32 := (hfit _ (List.mem_cons_self _ _)).1
      have hvl : v.length < 2 ^ 32 := (hfit _ (List.mem_cons_self _ _)).2.1
      have hutf : validUtf8 k = true := (hfit _ (List.mem_cons_self _ _)).2.2
      have hrest : opsFit rest := fun o ho => hfit o (List.mem_cons_of_mem _ ho)
      have hrecl : (encodeRecord (ts, k, v)).length
          = HEADER_SIZE + k.length + v.length := length_encode_kv ts k v
      have hassoc : pre ++ (logOf ((ts, k, v) :: rest) ++ suffix)
          = (pre ++ encodeRecord (ts, k, v)) ++ (logOf rest ++ suffix) := by
        simp [logOf, List.append_assoc]
      have hdrop : (pre ++ (logOf ((ts, k, v) :: rest) ++ suffix)).drop pre.length
          = (encode_kv ts k v).2 ++ (logOf rest ++ suffix) := by
        rw [List.drop_left]
        simp [logOf, encodeRecord, List.append_assoc]
      have hpos : pre.length ≤ (pre ++ (logOf ((ts, k, v) :: rest) ++ suffix)).length := by
        simp
      rw [loadKeydirAux_step _ _ acc ts k v _ hkl hvl hutf hpos hdrop]
      have hpre' : pre.length + (HEADER_SIZE + k.length + v.length)
          = (pre ++ encodeRecord (ts, k, v)).length := by
        simp [hrecl]
      rw [hassoc, hpre',
        ih (pre ++ encodeRecord (ts, k, v)) suffix
          (dictInsert acc k (pre.length, HEADER_SIZE + k.length + v.length)) hrest]
      have hlog : (logOf ((ts, k, v) :: rest)).length
          = (encodeRecord (ts, k, v)).length + (logOf rest).length := by
        simp [logOf]
      have hposeq : (pre ++ encodeRecord (ts, k, v)).length + (logOf rest).length
          = pre.length + (logOf ((ts, k, v) :: rest)).length := by
        simp [hlog]
        omega
      have hscan : scanEntries pre.length acc ((ts, k, v) :: rest)
          = scanEntries (pre ++ encodeRecord (ts, k, v)).length
              (dictInsert acc k (pre.length, HEADER_SIZE + k.length + v.length)) rest := by
        rw [scanEntries, hpre']
      rw [hposeq, hscan]

/-- The full load scan of an engine-written log rebuilds exactly the
entries of the records in order. -/
lemma load_logOf (ops : List Op) (h : opsFit ops) :
    loadKeydir (logOf ops) = some (scanEntries 0 [] ops) := by
  have hs := scan_log ops [] [] [] h
  simp only [List.nil_append, List.append_nil, List.length_nil, Nat.zero_add] at hs
  rw [loadKeydir, hs]
  exact loadKeydirAux_atEnd _ _ _ (le_refl _)

/-! ## Engine-state lemmas -/

lemma applyOps_append (s : DiskStorage) (l1 l2 : List Op) :
    applyOps s (l1 ++ l2) = applyOps (applyOps s l1) l2 := by
  induction l1 generalizing s with
  | nil => rfl
  | cons op rest ih =>
      obtain ⟨ts, k, v⟩ := op
      simp [applyOps, ih]

lemma applyOps_fileBytes (ops : List Op) : ∀ s : DiskStorage,
    (applyOps s ops).fileBytes = s.fileBytes ++ logOf ops := by
  induction ops with
  | nil => intro s; simp [applyOps, logOf]
  | cons op rest ih =>
      intro s
      obtain ⟨ts, k, v⟩ := op
      rw [applyOps, ih]
      simp [setOp, logOf, encodeRecord, List.append_assoc]

lemma applyOps_keydir (ops : List Op) : ∀ s : DiskStorage,
    (applyOps s ops).keydir = scanEntries s.fileBytes.length s.keydir ops := by
  induction ops with
  | nil => intro s; simp [applyOps, scanEntries]
  | cons op rest ih =>
      intro s
      obtain ⟨ts, k, v⟩ := op
      rw [applyOps, ih]
      have h1 : (setOp s ts k v).fileBytes.length
          = s.fileBytes.length + (HEADER_SIZE + k.length + v.length) := by
        simp [setOp, length_encode_kv]
      have h2 : (setOp s ts k v).keydir
          = dictInsert s.keydir k
              (s.fileBytes.length, HEADER_SIZE + k.length + v.length) := by
        simp [setOp, encode_kv_fst]
      rw [h1, h2, scanEntries]

/-- Reading back the key just written from any state returns the value
just written. -/
lemma get_after_set (s : DiskStorage) (ts : Nat) (k v : Bytes)
    (hk : k.length < 2 ^ 32) (hv : v.length < 2 ^ 32) :
    getOp (setOp s ts k v) k = some v := by
  have hslice : (((setOp s ts k v).fileBytes).drop s.fileBytes.length).take
      (encode_kv ts k v).1 = (encode_kv ts k v).2 := by
    show ((s.fileBytes ++ (encode_kv ts k v).2).drop s.fileBytes.length).take
      (encode_kv ts k v).1 = (encode_kv ts k v).2
    rw [List.drop_left, encode_kv_fst, ← length_encode_kv, List.take_length]
  have hlook : dictLookup (setOp s ts k v).keydir k
      = some (s.fileBytes.length, (encode_kv ts k v).1) :=
    dictLookup_insert_self _ _ _
  rw [getOp, hlook]
  dsimp only
  rw [hslice, decode_encode ts k v hk hv]

/-! ## KeyDir health invariant -/

lemma storageInv_empty : storageInv emptyEngine := by
  intro k e h
  simp [emptyEngine, dictLookup] at h

lemma entryOK_append (file data : Bytes) (k : Bytes) (e : Nat × Nat)
    (h : entryOK file k e) : entryOK (file ++ data) k e := by
  obtain ⟨ts, v, hk, hv, hsz, hle, hslice⟩ := h
  refine ⟨ts, v, hk, hv, hsz, by simp; omega, ?_⟩
  rw [List.drop_append_of_le_length (by omega),
    List.take_append_of_le_length (by rw [List.length_drop]; omega)]
  exact hslice

lemma storageInv_set (s : DiskStorage) (ts : Nat) (k v : Bytes)
    (hk : k.length < 2 ^ 32) (hv : v.length < 2 ^ 32)
    (h : storageInv s) : storageInv (setOp s ts k v) := by
  intro k' e he
  have hkd : (setOp s ts k v).keydir
      = dictInsert s.keydir k (s.fileBytes.length, (encode_kv ts k v).1) := rfl
  by_cases hkk : k' = k
  · subst hkk
    rw [hkd, dictLookup_insert_self] at he
    injection he with he
    subst he
    refine ⟨ts, v, hk, hv, by rw [encode_kv_fst], ?_, ?_⟩
    · simp [setOp, encode_kv_fst, length_encode_kv]
    · show ((s.fileBytes ++ (encode_kv ts k' v).2).drop s.fileBytes.length).take
        (encode_kv ts k' v).1 = _
      rw [List.drop_left, encode_kv_fst, ← length_encode_kv, List.take_length]
  · rw [hkd, dictLookup_insert_ne _ _ _ _ hkk] at he
    exact entryOK_append _ _ _ _ (h k' e he)

lemma storageInv_applyOps (ops : List Op) : ∀ s : DiskStorage, opsFit ops →
    storageInv s → storageInv (applyOps s ops) := by
  induction ops with
  | nil => intro s _ h; exact h
  | cons op rest ih =>
      intro s hfit h
      obtain ⟨ts, k, v⟩ := op
      have hop : opFits (ts, k, v) := hfit _ (List.mem_cons_self _ _)
      exact ih (setOp s ts k v) (fun o ho => hfit o (List.mem_cons_of_mem _ ho))
        (storageInv_set s ts k v hop.1 hop.2.1 h)

/-! ## Claims -/

/-- C1: For every key and value, on a live engine, calling `set(key, value)`
and then `get(key)` returns exactly that value (for inputs whose key and
value lengths fit the header's unsigned 32-bit length fields). -/
theorem set_then_get (s : DiskStorage) (ts : Nat) (key value : Bytes)
    (hk : key.length < 2 ^ 32) (hv : value.length < 2 ^ 32) :
    getOp (setOp s ts key value) key = some value :=
  get_after_set s ts key value hk hv

theorem set_then_get_witness :
    getOp (setOp emptyEngine 0 [97] [98]) [97] = some [98] :=
  set_then_get emptyEngine 0 [97] [98] (by decide) (by decide)

/-- C3: `set(key, v1)` then `set(key, v2)` followed by `get(key)` returns
`v2`: the later write shadows the earlier one. -/
theorem last_write_wins (s : DiskStorage) (ts1 ts2 : Nat) (key v1 v2 : Bytes)
    (hk : key.length < 2 ^ 32) (hv2 : v2.length < 2 ^ 32) :
    getOp (setOp (setOp s ts1 key v1) ts2 key v2) key = some v2 :=
  get_after_set (setOp s ts1 key v1) ts2 key v2 hk hv2

theorem last_write_wins_witness :
    getOp (setOp (setOp emptyEngine 0 [97] [98]) 1 [97] [99]) [97] = some [99] :=
  last_write_wins emptyEngine 0 1 [97] [98] [99] (by decide) (by decide)

/-- C5 counterexample: on a failing append the KeyDir is *not* left
unchanged — `set` updates it before writing, so the failed write leaves a
fresh binding behind. -/
theorem write_fail_keydir_changed :
    (setOpWriteFail emptyEngine 0 [97] [98]).keydir ≠ emptyEngine.keydir := by
  decide

/-- C5 amended: when the append inside `set(key, value)` fails, the failure
propagates, but the KeyDir has already been updated (index-then-write, no
rollback): it is left pointing at the pre-write offset with the full record
size, a byte range extending past the end of the unchanged file. -/
theorem write_fail_state (s : DiskStorage) (ts : Nat) (key value : Bytes) :
    (setOpWriteFail s ts key value).fileBytes = s.fileBytes
    ∧ dictLookup (setOpWriteFail s ts key value).keydir key
        = some (s.fileBytes.length, HEADER_SIZE + key.length + value.length)
    ∧ s.fileBytes.length + (HEADER_SIZE + key.length + value.length)
        > (setOpWriteFail s ts key value).fileBytes.length := by
  refine ⟨rfl, ?_, ?_⟩
  · show dictLookup (dictInsert s.keydir key
        (s.fileBytes.length, (encode_kv ts key value).1)) key = _
    rw [dictLookup_insert_self, encode_kv_fst]
  · show s.fileBytes.length + (HEADER_SIZE + key.length + value.length)
        > s.fileBytes.length
    simp only [HEADER_SIZE]
    omega

/-- C6 counterexample: the absent-key result of `get` is the empty string,
which is *not* distinct from every stored value: after `set("b", "")`, the
stored key and a never-set key yield the same result. -/
theorem absent_not_distinct :
    dictLookup (setOp emptyEngine 0 [98] []).keydir [97] = none
    ∧ getOp (setOp emptyEngine 0 [98] []) [98] = some []
    ∧ getOp (setOp emptyEngine 0 [98] []) [97] = some [] := by
  decide

/-- C6 amended: `get` of a key absent from the KeyDir returns the empty
string — a normal, non-error outcome, but one a stored empty value also
produces; on a freshly opened engine over an empty file, `get` of any key
returns the empty string. -/
theorem absent_returns_empty (s : DiskStorage) (key a : Bytes)
    (h : dictLookup s.keydir key = none) :
    getOp s key = some []
    ∧ openEngine [] = some emptyEngine
    ∧ getOp emptyEngine a = some [] := by
  refine ⟨?_, ?_, rfl⟩
  · rw [getOp, h]
  · rw [openEngine, loadKeydir, loadKeydirAux_atEnd _ _ _ (by simp)]
    rfl

theorem absent_returns_empty_witness :
    getOp emptyEngine [97] = some []
    ∧ openEngine [] = some emptyEngine
    ∧ getOp emptyEngine [99] = some [] :=
  absent_returns_empty emptyEngine [97] [99] (by decide)

/-- C7: after `set(key, value)` the KeyDir binds `key` to the pre-write end
of the log paired with `HEADER_SIZE` plus the encoded key and value
lengths, and the binding is overwritten, not duplicated. -/
theorem set_keydir_entry (s : DiskStorage) (ts : Nat) (key value : Bytes)
    (h : nodupKeys s.keydir) :
    dictLookup (setOp s ts key value).keydir key
      = some (s.fileBytes.length, HEADER_SIZE + key.length + value.length)
    ∧ countKey (setOp s ts key value).keydir key = 1
    ∧ nodupKeys (setOp s ts key value).keydir := by
  refine ⟨?_, ?_, ?_⟩
  · show dictLookup (dictInsert s.keydir key
        (s.fileBytes.length, (encode_kv ts key value).1)) key = _
    rw [dictLookup_insert_self, encode_kv_fst]
  · exact countKey_insert s.keydir key _ h
  · exact nodupKeys_insert s.keydir key _ h

theorem set_keydir_entry_witness :
    dictLookup (setOp emptyEngine 0 [97] [98, 99]).keydir [97]
      = some (0, HEADER_SIZE + 1 + 2)
    ∧ countKey (setOp emptyEngine 0 [97] [98, 99]).keydir [97] = 1
    ∧ nodupKeys (setOp emptyEngine 0 [97] [98, 99]).keydir :=
  set_keydir_entry emptyEngine 0 [97] [98, 99] (by simp [emptyEngine, nodupKeys])

/-- C8: decoding the bytes produced by the codec's encode yields back
exactly the encoded triple, for triples whose fields fit the header. -/
theorem codec_roundtrip (ts : Nat) (key value : Bytes)
    (hts : ts < 2 ^ 32) (hk : key.length < 2 ^ 32) (hv : value.length < 2 ^ 32) :
    decode_kv (encode_kv ts key value).2 = some (ts, key, value) := by
  rw [decode_encode ts key value hk hv, Nat.mod_eq_of_lt hts]

theorem codec_roundtrip_witness :
    decode_kv (encode_kv 5 [104] [105, 106]).2 = some (5, [104], [105, 106]) :=
  codec_roundtrip 5 [104] [105, 106] (by decide) (by decide) (by decide)

/-- C10: `get` of an absent key and `get` of a key whose most recent value
is the empty string return the same result, the empty string, so a caller
cannot tell `set(key, "")` from a never-set key. -/
theorem empty_value_like_absent (s : DiskStorage) (ts : Nat) (key other : Bytes)
    (h : dictLookup (setOp s ts key []).keydir other = none) :
    getOp (setOp s ts key []) key = getOp (setOp s ts key []) other
    ∧ getOp (setOp s ts key []) key = some [] := by
  have hother : getOp (setOp s ts key []) other = some [] := by
    rw [getOp, h]
  have hself : getOp (setOp s ts key []) key = some [] := by
    have hlook := dictLookup_insert_self s.keydir key
      (s.fileBytes.length, (encode_kv ts key []).1)
    have hslice : (((setOp s ts key []).fileBytes).drop s.fileBytes.length).take
        (encode_kv ts key []).1 = (encode_kv ts key []).2 := by
      show ((s.fileBytes ++ (encode_kv ts key []).2).drop s.fileBytes.length).take
        (encode_kv ts key []).1 = _
      rw [List.drop_left, encode_kv_fst, ← length_encode_kv, List.take_length]
    have hdec : decode_header (encode_kv ts key []).2
        = some (ts % 2 ^ 32, key.length % 2 ^ 32, 0) := by
      have h0 : (0 : Nat) % 2 ^ 32 = 0 := rfl
      rw [encode_kv_snd]
      simp only [List.length_nil]
      rw [decode_header_encode, h0]
    have hlen : ¬ ((encode_kv ts key []).2.length
        < HEADER_SIZE + key.length % 2 ^ 32 + 0) := by
      rw [length_encode_kv]
      have := Nat.mod_le key.length (2 ^ 32)
      simp only [List.length_nil]
      omega
    rw [getOp]
    rw [show (setOp s ts key []).keydir = dictInsert s.keydir key
      (s.fileBytes.length, (encode_kv ts key []).1) from rfl, hlook]
    dsimp only
    rw [hslice]
    unfold decode_kv
    rw [hdec]
    dsimp only
    rw [if_neg hlen, List.take_zero]
  exact ⟨hself.trans hother.symm, hself⟩

theorem empty_value_like_absent_witness :
    getOp (setOp emptyEngine 0 [97] []) [97] = getOp (setOp emptyEngine 0 [97] []) [98]
    ∧ getOp (setOp emptyEngine 0 [97] []) [97] = some [] :=
  empty_value_like_absent emptyEngine 0 [97] [98] (by decide)

/-- C2: for every sequence of `set` calls from a fresh file, the KeyDir the
startup load scan rebuilds from the resulting log (later records
overwriting earlier ones for the same key) equals the incrementally
maintained KeyDir, so re-opening the path and reading the last-set key
returns its value. -/
theorem durable_restart (ops : List Op) (ts : Nat) (key value : Bytes)
    (h : opsFit (ops ++ [(ts, key, value)])) :
    openEngine (applyOps emptyEngine (ops ++ [(ts, key, value)])).fileBytes
      = some (applyOps emptyEngine (ops ++ [(ts, key, value)]))
    ∧ getOp (applyOps emptyEngine (ops ++ [(ts, key, value)])) key = some value := by
  constructor
  · have hstate : applyOps emptyEngine (ops ++ [(ts, key, value)])
        = ⟨logOf (ops ++ [(ts, key, value)]),
           scanEntries 0 [] (ops ++ [(ts, key, value)])⟩ := by
      ext1
      · rw [applyOps_fileBytes]; rfl
      · rw [applyOps_keydir]; rfl
    rw [hstate]
    show openEngine (logOf (ops ++ [(ts, key, value)])) = _
    rw [openEngine, load_logOf _ h]
    rfl
  · rw [applyOps_append]
    have hfit : opFits (ts, key, value) := h _ (by simp)
    exact get_after_set _ ts key value hfit.1 hfit.2.1

theorem durable_restart_witness :
    openEngine (applyOps emptyEngine ([] ++ [(0, [97], [98])])).fileBytes
      = some (applyOps emptyEngine ([] ++ [(0, [97], [98])]))
    ∧ getOp (applyOps emptyEngine ([] ++ [(0, [97], [98])])) [97] = some [98] :=
  durable_restart [] 0 [97] [98] (by decide)

/-- C4 counterexample: a single-record log truncated strictly inside the
value bytes (14 of 15 bytes kept) re-opens without any `CorruptLog` error,
yet its KeyDir entry's size (15) reaches past end-of-file (14). -/
theorem trunc_mid_value_no_error :
    loadKeydir (((encode_kv 0 [97] [98, 99]).2).take 14) = some [([97], (0, 15))] := by
  have h := loadKeydirAux_truncTail (((encode_kv 0 [97] [98, 99]).2).take 14) 0 []
    0 [97] [98, 99] 14 (by decide) (by decide) (by decide) (by decide) (by decide)
    (Nat.zero_le _) (by rw [List.drop_zero])
  rw [loadKeydir, h]
  decide

/-- C4 amended: opening an engine on a log truncated strictly inside a
record surfaces an error during the load scan only when the cut falls
strictly inside that record's fixed-size header (`CorruptLog` from the
header decode) or when it cuts the key bytes so that the truncated key
read is not valid UTF-8 (`UnicodeDecodeError`); any other mid-record
truncation — in particular any truncation strictly inside the value bytes
of a text-keyed record — is silently accepted: the scan completes and
records an entry (under the key read) whose size extends past
end-of-file. -/
theorem trunc_amended (ops : List Op) (ts : Nat) (key value : Bytes) (t : Nat)
    (hops : opsFit ops) (hk : key.length < 2 ^ 32) (hv : value.length < 2 ^ 32)
    (ht0 : 0 < t) (ht : t < HEADER_SIZE + key.length + value.length) :
    (t < HEADER_SIZE →
      loadKeydir (logOf ops ++ ((encode_kv ts key value).2).take t) = none)
    ∧ (HEADER_SIZE ≤ t → validUtf8 (key.take (t - HEADER_SIZE)) = true →
      loadKeydir (logOf ops ++ ((encode_kv ts key value).2).take t)
        = some (dictInsert (scanEntries 0 [] ops) (key.take (t - HEADER_SIZE))
            ((logOf ops).length, HEADER_SIZE + key.length + value.length))
      ∧ (logOf ops ++ ((encode_kv ts key value).2).take t).length
          < (logOf ops).length + (HEADER_SIZE + key.length + value.length))
    ∧ (HEADER_SIZE ≤ t → validUtf8 (key.take (t - HEADER_SIZE)) = false →
      loadKeydir (logOf ops ++ ((encode_kv ts key value).2).take t) = none)
    ∧ (HEADER_SIZE + key.length ≤ t → validUtf8 key = true →
      loadKeydir (logOf ops ++ ((encode_kv ts key value).2).take t)
        = some (dictInsert (scanEntries 0 [] ops) key
            ((logOf ops).length, HEADER_SIZE + key.length + value.length))
      ∧ (logOf ops ++ ((encode_kv ts key value).2).take t).length
          < (logOf ops).length + (HEADER_SIZE + key.length + value.length)) := by
  have hscan := scan_log ops [] (((encode_kv ts key value).2).take t) [] hops
  simp only [List.nil_append, List.length_nil, Nat.zero_add] at hscan
  have hdrop : (logOf ops ++ ((encode_kv ts key value).2).take t).drop (logOf ops).length
      = ((encode_kv ts key value).2).take t := List.drop_left _ _
  have hpos : (logOf ops).length
      ≤ (logOf ops ++ ((encode_kv ts key value).2).take t).length := by simp
  have hlent : (((encode_kv ts key value).2).take t).length = t := by
    rw [List.length_take, length_encode_kv]
    omega
  have hB : HEADER_SIZE ≤ t → validUtf8 (key.take (t - HEADER_SIZE)) = true →
      loadKeydir (logOf ops ++ ((encode_kv ts key value).2).take t)
        = some (dictInsert (scanEntries 0 [] ops) (key.take (t - HEADER_SIZE))
            ((logOf ops).length, HEADER_SIZE + key.length + value.length))
      ∧ (logOf ops ++ ((encode_kv ts key value).2).take t).length
          < (logOf ops).length + (HEADER_SIZE + key.length + value.length) := by
    intro hge hutf
    refine ⟨?_, ?_⟩
    · rw [loadKeydir, hscan]
      exact loadKeydirAux_truncTail _ _ _ ts key value t hk hv hutf hge ht hpos hdrop
    · rw [List.length_append, hlent]
      omega
  refine ⟨?_, hB, ?_, ?_⟩
  · intro hlt
    rw [loadKeydir, hscan]
    exact loadKeydirAux_truncHeader _ _ _ ts key value t ht0 hlt hdrop
  · intro hge hutf
    rw [loadKeydir, hscan]
    exact loadKeydirAux_truncKeyBad _ _ _ ts key value t hk hv hutf hge ht hpos hdrop
  · intro hge hutf
    have htk : key.take (t - HEADER_SIZE) = key :=
      List.take_of_length_le (by omega)
    have hres := hB (by omega) (by rw [htk]; exact hutf)
    rw [htk] at hres
    exact hres

theorem trunc_amended_witness :
    loadKeydir (logOf [] ++ ((encode_kv 0 [97] [98, 99]).2).take 13)
      = some (dictInsert (scanEntries 0 [] []) ([97].take (13 - HEADER_SIZE))
          ((logOf []).length, HEADER_SIZE + ([97] : Bytes).length + ([98, 99] : Bytes).length))
    ∧ (logOf [] ++ ((encode_kv 0 [97] [98, 99]).2).take 13).length
        < (logOf []).length + (HEADER_SIZE + ([97] : Bytes).length + ([98, 99] : Bytes).length) :=
  (trunc_amended [] 0 [97] [98, 99] 13 (by decide) (by decide) (by decide)
    (by decide) (by decide)).2.1 (by decide) (by decide)

/-- C9: in every state reachable through the public API (a fresh or
re-opened engine-written file followed by `set` calls — such states are
exactly `applyOps emptyEngine ops`, and `get` calls do not change state),
every KeyDir entry decodes to a record whose key is the entry's key, so the
decode inside `get` never fails and `get` never surfaces `IndexCorruption`. -/
theorem keydir_entries_decode (ops : List Op) (h : opsFit ops) :
    (∀ key off sz,
      dictLookup (applyOps emptyEngine ops).keydir key = some (off, sz) →
      ∃ ts' v', decode_kv (((applyOps emptyEngine ops).fileBytes.drop off).take sz)
        = some (ts', key, v'))
    ∧ ∀ key, (getOp (applyOps emptyEngine ops) key).isSome = true := by
  have hinv : storageInv (applyOps emptyEngine ops) :=
    storageInv_applyOps ops emptyEngine h storageInv_empty
  constructor
  · intro key off sz hl
    obtain ⟨ts', v', hk, hv, _, _, hslice⟩ := hinv key (off, sz) hl
    dsimp only at hslice
    refine ⟨ts' % 2 ^ 32, v', ?_⟩
    rw [hslice]
    exact decode_encode _ _ _ hk hv
  · intro key
    rw [getOp]
    cases hl : dictLookup (applyOps emptyEngine ops).keydir key with
    | none => rfl
    | some e =>
        obtain ⟨off, sz⟩ := e
        obtain ⟨ts', v', hk, hv, _, _, hslice⟩ := hinv key (off, sz) hl
        dsimp only at hslice ⊢
        rw [hslice, decode_encode _ _ _ hk hv]
        rfl

theorem keydir_entries_decode_witness :
    (getOp (applyOps emptyEngine [(0, [97], [98])]) [97]).isSome = true :=
  (keydir_entries_decode [(0, [97], [98])] (by decide)).2 [97]
